import Mathlib

/-!
Shallow embedding of the wagmi CLI plugin adapters defined in
`packages/cli/src/plugins/fetch.ts`: the Fetch adapter (network fetch with a
disk cache fallback) and the Hardhat adapter (build commands, artifact scan,
watch hooks). The file system, the network and process execution are modelled
as explicit environment parameters; JavaScript promise rejection is modelled
with `Except`.
-/

/-- An item of a contract ABI (a function or event descriptor). The adapters
treat ABIs as opaque JSON sequences, so the internal structure of an item is
irrelevant; two fields keep distinct items distinguishable. -/
structure AbiItem where
  kind : String
  name : String
deriving DecidableEq

/-- An ABI is an ordered sequence of ABI items. -/
abbrev Abi := List AbiItem

/-- A contract address as in `ContractConfig`: a plain address string or a
chain-id-to-address mapping. -/
inductive JsAddress where
  | addr (a : String)
  | chainMap (m : List (Nat × String))
deriving DecidableEq

/-- An input contract configuration of the Fetch adapter
(the `Omit ContractConfig abi` elements of `FetchConfig.contracts`). -/
structure FetchContract where
  address : Option JsAddress
  name : String
deriving DecidableEq

/-- A resolved contract record pushed by the Fetch adapter loop:
`{ abi, address, name }` (fetch.ts line 74). -/
structure ContractRecord where
  abi : Abi
  address : Option JsAddress
  name : String
deriving DecidableEq

/-- A rejection surfaced by the Fetch adapter loop. `fetchParse` is a
rejection of the composed `nodeFetch` and `parse` step (the body of the
`try`); `fileRead` is the rejection of `fse.readJSON` on a missing cache
file (an ENOENT error naming the cache key). -/
inductive FetchErr where
  | fetchParse (msg : String)
  | fileRead (cacheKey : String)
deriving DecidableEq

/-- The on-disk ABI cache directory of the Fetch adapter, one JSON file per
cache key: modelled as an association list from cache key to stored ABI. -/
abbrev Cache := List (String × Abi)

/-- Reading the cache file of `key` with `fse.readJSON`: `some` stored value
when the file exists, `none` when it is missing (in which case the real call
rejects with ENOENT). -/
def cacheRead (cache : Cache) (key : String) : Option Abi :=
  (cache.find? (fun kv => kv.1 == key)).map (fun kv => kv.2)

/-- Writing `value` with `fse.writeJSON` to the cache file of `key`,
overwriting any previous content. -/
def cacheWrite (cache : Cache) (key : String) (value : Abi) : Cache :=
  (key, value) :: cache.filter (fun kv => kv.1 != key)

/-- One iteration of the `for` loop in the Fetch adapter `contracts()`
(fetch.ts lines 63 to 76): try the live fetch and parse; on rejection fall
back to `fse.readJSON` of the cache file, which itself rejects when the file
is missing; then push the record and write the resolved ABI through to the
cache. `fetchResult` is the composed behaviour of `nodeFetch` plus `parse`
for a contract (the `request` callback is assumed to resolve; its output
only feeds `nodeFetch`). The source guard `if (!abi) throw error` cannot
fire on the fallback path here because the stored value is a JSON array and
JavaScript arrays are truthy. -/
def fetchStep (fetchResult : FetchContract → Except String Abi)
    (getCacheKey : FetchContract → String) (cache : Cache)
    (contract : FetchContract) : Except FetchErr (ContractRecord × Cache) :=
  let cacheKey := getCacheKey contract
  match fetchResult contract with
  | .ok abi =>
      .ok (⟨abi, contract.address, contract.name⟩, cacheWrite cache cacheKey abi)
  | .error _ =>
      match cacheRead cache cacheKey with
      | none => .error (.fileRead cacheKey)
      | some abi =>
          .ok (⟨abi, contract.address, contract.name⟩, cacheWrite cache cacheKey abi)

/-- The Fetch adapter `contracts()` (fetch.ts lines 61 to 78): process the
configured contracts in order, threading the cache through the loop; the
first rejection aborts the whole call. -/
def fetchContracts (fetchResult : FetchContract → Except String Abi)
    (getCacheKey : FetchContract → String) :
    List FetchContract → Cache → Except FetchErr (List ContractRecord × Cache)
  | [], cache => .ok ([], cache)
  | contract :: rest, cache =>
      match fetchStep fetchResult getCacheKey cache contract with
      | .error e => .error e
      | .ok (record, cache') =>
          match fetchContracts fetchResult getCacheKey rest cache' with
          | .error e => .error e
          | .ok (records, cache'') => .ok (record :: records, cache'')

/-- A concrete caller-supplied cache key function used in concrete
instances: the plain address when present, else the contract name. -/
def demoCacheKey : FetchContract → String := fun c =>
  match c.address with
  | some (.addr a) => a
  | _ => c.name

/-- A concrete contract configuration used in concrete instances. -/
def demoContract : FetchContract := ⟨some (.addr "0xabc"), "Token"⟩

/-- A concrete non-empty ABI used in concrete instances. -/
def demoAbi : Abi := [⟨"function", "transfer"⟩]

/-- A concrete fetch behaviour whose live fetch always rejects. -/
def demoFetchDown : FetchContract → Except String Abi :=
  fun _ => .error "network down"

/-- A concrete fetch behaviour whose parse always yields an empty ABI. -/
def demoFetchEmpty : FetchContract → Except String Abi := fun _ => .ok []

/-- Reading the key just written yields the written value. -/
theorem cacheRead_cacheWrite (cache : Cache) (key : String) (value : Abi) :
    cacheRead (cacheWrite cache key value) key = some value := by
  simp [cacheRead, cacheWrite]

/-- Claim C1: evaluation of the code at the failing input. With one contract
whose live fetch rejects and an empty cache, the Fetch adapter call rejects
with the file read error of the cache lookup, which differs from the
original fetch error: the original error is not re-raised, contradicting the
claim that it is. -/
theorem c1_code_eval :
    fetchContracts demoFetchDown demoCacheKey [demoContract] [] =
      .error (.fileRead "0xabc") ∧
    FetchErr.fileRead "0xabc" ≠ FetchErr.fetchParse "network down" := by
  exact ⟨rfl, by decide⟩

/-- Claim C2: counterexample. The Fetch adapter applies no empty-ABI filter:
with a parse yielding an empty ABI, the returned sequence contains a record
whose ABI is the empty sequence, so the claim that every adapter drops
empty-ABI entries is false. -/
theorem c2_counterexample :
    (match fetchContracts demoFetchEmpty demoCacheKey [demoContract] [] with
      | .ok (records, _) => records.any (fun r => r.abi.isEmpty)
      | .error _ => false) = true := by
  rfl

/-- Claim C3: when the live fetch or parse for a contract rejects but a
cache file exists for that contract cache key, the per-contract resolution
does not throw and the returned record ABI equals the cached value (and the
cached value is written back). -/
theorem c3_cache_fallback (fetchResult : FetchContract → Except String Abi)
    (getCacheKey : FetchContract → String) (cache : Cache)
    (contract : FetchContract) (e : String) (abi : Abi)
    (hfail : fetchResult contract = .error e)
    (hcache : cacheRead cache (getCacheKey contract) = some abi) :
    fetchStep fetchResult getCacheKey cache contract =
      .ok (⟨abi, contract.address, contract.name⟩,
        cacheWrite cache (getCacheKey contract) abi) := by
  simp [fetchStep, hfail, hcache]

/-- Claim C3 witness: the theorem applied at a concrete contract with a
failing fetch and a populated cache entry. -/
theorem c3_cache_fallback_witness :
    fetchStep demoFetchDown demoCacheKey [("0xabc", demoAbi)] demoContract =
      .ok (⟨demoAbi, demoContract.address, demoContract.name⟩,
        cacheWrite [("0xabc", demoAbi)] (demoCacheKey demoContract) demoAbi) :=
  c3_cache_fallback demoFetchDown demoCacheKey [("0xabc", demoAbi)]
    demoContract "network down" demoAbi rfl rfl

/-- Claim C10: whenever the per-contract resolution of the Fetch adapter
succeeds, the resolved ABI has been written to the cache file of that
contract cache key; this covers both the live-fetch branch and the
cache-fallback branch, where the cached value is rewritten. -/
theorem c10_write_through (fetchResult : FetchContract → Except String Abi)
    (getCacheKey : FetchContract → String) (cache : Cache)
    (contract : FetchContract) (record : ContractRecord) (cache' : Cache)
    (h : fetchStep fetchResult getCacheKey cache contract = .ok (record, cache')) :
    cacheRead cache' (getCacheKey contract) = some record.abi := by
  simp only [fetchStep] at h
  cases hfr : fetchResult contract with
  | ok abi =>
      rw [hfr] at h
      cases h
      exact cacheRead_cacheWrite cache (getCacheKey contract) abi
  | error e =>
      rw [hfr] at h
      cases hcr : cacheRead cache (getCacheKey contract) with
      | none => rw [hcr] at h; cases h
      | some abi =>
          rw [hcr] at h
          cases h
          exact cacheRead_cacheWrite cache (getCacheKey contract) abi

/-- Claim C10 witness: the theorem applied at a concrete contract resolved
through the cache fallback; the cached value has been rewritten. -/
theorem c10_write_through_witness :
    cacheRead (cacheWrite [("0xabc", demoAbi)] (demoCacheKey demoContract) demoAbi)
      (demoCacheKey demoContract) =
      some (ContractRecord.abi ⟨demoAbi, demoContract.address, demoContract.name⟩) :=
  c10_write_through demoFetchDown demoCacheKey [("0xabc", demoAbi)] demoContract
    ⟨demoAbi, demoContract.address, demoContract.name⟩
    (cacheWrite [("0xabc", demoAbi)] (demoCacheKey demoContract) demoAbi) rfl

/-- A list of characters split at every separator character selected by `p`,
keeping empty pieces, as JavaScript `split` does with a one-character
separator. -/
def splitCharsWhen (p : Char → Bool) : List Char → List (List Char)
  | [] => [[]]
  | c :: rest =>
      let r := splitCharsWhen p rest
      if p c then [] :: r
      else
        match r with
        | [] => [[c]]
        | t :: ts => (c :: t) :: ts

/-- JavaScript `s.split(" ")` as used on command strings (fetch.ts lines
190, 195 and 248): split at every single space character, keeping empty
pieces; consecutive spaces therefore yield empty tokens and no other
whitespace character separates. -/
def splitOnSpace (s : String) : List String :=
  (splitCharsWhen (fun c => c == ' ') s.toList).map String.mk

/-- Modelled from the spec words for comparison with `splitOnSpace`:
"commands are supplied as a single string, split on whitespace into
executable + argument list", read as tokenisation at maximal whitespace
runs. -/
def splitOnWhitespaceSpec (s : String) : List String :=
  ((splitCharsWhen Char.isWhitespace s.toList).map String.mk).filter
    (fun t => t != "")

/-- A spawned child process: executable, argument list and working
directory, as in `execa(command, options, { cwd })`. -/
structure Exec where
  exe : String
  args : List String
  cwd : String
deriving DecidableEq

/-- The process spawned for a command string (fetch.ts lines 190 to 191):
`const [command, ...options] = clean.split(" ")`, executed with working
directory `resolve(project)`. `resolvePath` models `resolve` from pathe. -/
def commandExec (resolvePath : String → String) (project s : String) : Exec :=
  match splitOnSpace s with
  | [] => ⟨"", [], resolvePath project⟩
  | exe :: args => ⟨exe, args, resolvePath project⟩

/-- A command slot value of `HardhatConfig.commands`: `false` (disabled) or
a command string. -/
inductive JsCmd where
  | off
  | cmd (s : String)
deriving DecidableEq

/-- The `commands` option of the Hardhat adapter; `none` models an absent
(undefined) field. -/
structure HardhatCommands where
  clean : Option JsCmd
  build : Option JsCmd
  rebuild : Option JsCmd
deriving DecidableEq

/-- A parsed Hardhat build artifact: the `contractName` and `abi` fields of
the artifact JSON; all other fields are ignored by the adapter. -/
structure Artifact where
  contractName : String
  abi : Abi
deriving DecidableEq

/-- The configuration of the Hardhat adapter needed by the modelled
operations: the project path, the name prefix option (`namePrefix` in the
source) and the commands. -/
structure HardhatCfg where
  project : String
  prefixName : String
  commands : HardhatCommands
deriving DecidableEq

/-- The environment the Hardhat adapter runs against: the detected package
manager, the success of each spawned process, whether the artifacts
directory exists, and the artifact files the glob scan finds, as pairs of
path and parsed JSON content. -/
structure HardhatEnv where
  packageManager : String
  execOk : Exec → Bool
  artifactsExist : Bool
  artifactFiles : List (String × Artifact)

/-- A contract produced by the Hardhat adapter: `{ abi, name }`. -/
structure HHContract where
  abi : Abi
  name : String
deriving DecidableEq

/-- `getContractName` (fetch.ts lines 160 to 162): the configured name
prefix prepended to the artifact contract name. -/
def getContractName (prefixName : String) (artifact : Artifact) : String :=
  prefixName ++ artifact.contractName

/-- `getContract` (fetch.ts lines 164 to 170): the contract record read from
an artifact file; the environment supplies the parsed JSON. -/
def getContract (prefixName : String) (artifact : Artifact) : HHContract :=
  ⟨artifact.abi, getContractName prefixName artifact⟩

/-- Resolution of a command slot to the process to spawn, if any (fetch.ts
lines 189 to 191 and 194 to 196): a disabled command is skipped, and so is
an empty command string, which is falsy under the JavaScript `if (clean)`
guard. -/
def runnableExec (resolvePath : String → String) (project : String) :
    JsCmd → Option Exec
  | .off => none
  | .cmd s => if s = "" then none else some (commandExec resolvePath project s)

/-- The resolved clean command (fetch.ts line 188): the configured slot, or
the package manager default when the slot is absent. -/
def cleanCmdOf (env : HardhatEnv) (cfg : HardhatCfg) : JsCmd :=
  cfg.commands.clean.getD (.cmd (env.packageManager ++ " hardhat clean"))

/-- The resolved build command (fetch.ts line 193). -/
def buildCmdOf (env : HardhatEnv) (cfg : HardhatCfg) : JsCmd :=
  cfg.commands.build.getD (.cmd (env.packageManager ++ " hardhat compile"))

/-- The process the clean stage spawns, if any. -/
def cleanExecOf (resolvePath : String → String) (env : HardhatEnv)
    (cfg : HardhatCfg) : Option Exec :=
  runnableExec resolvePath cfg.project (cleanCmdOf env cfg)

/-- The process the build stage spawns, if any. -/
def buildExecOf (resolvePath : String → String) (env : HardhatEnv)
    (cfg : HardhatCfg) : Option Exec :=
  runnableExec resolvePath cfg.project (buildCmdOf env cfg)

/-- The artifact scan of the Hardhat `contracts()` (fetch.ts lines 198 to
208): require the artifacts directory, then read every artifact path found
by globby and keep the contracts whose ABI is non-empty, mirroring
`if (!contract.abi?.length) continue`. -/
def scanArtifacts (env : HardhatEnv) (cfg : HardhatCfg) :
    Except String (List HHContract) :=
  if env.artifactsExist then
    .ok (((env.artifactFiles.map (fun pa => getContract cfg.prefixName pa.2)).filter
      (fun c => c.abi.length != 0)))
  else .error "Artifacts not found."

/-- One optional command stage of the Hardhat `contracts()`: when a process
is to be spawned and it fails, the call aborts with no contract list;
otherwise the rest of the call runs after it. The first component collects
the spawned processes in order. -/
def execStage (env : HardhatEnv) (oe : Option Exec)
    (rest : Unit → List Exec × Except String (List HHContract)) :
    List Exec × Except String (List HHContract) :=
  match oe with
  | none => rest ()
  | some ex =>
      if env.execOk ex then
        let r := rest ()
        (ex :: r.1, r.2)
      else ([ex], .error "command failed")

/-- The Hardhat adapter `contracts()` (fetch.ts lines 183 to 209): run the
clean command when enabled, then the build command when enabled, then the
artifact scan; each failing stage aborts the whole call. Returns the spawned
processes in order together with the result. -/
def hardhatContracts (resolvePath : String → String) (env : HardhatEnv)
    (cfg : HardhatCfg) : List Exec × Except String (List HHContract) :=
  execStage env (cleanExecOf resolvePath env cfg) (fun _ =>
    execStage env (buildExecOf resolvePath env cfg) (fun _ =>
      ([], scanArtifacts env cfg)))

/-- The Hardhat adapter `validate()` (fetch.ts lines 211 to 230): spawn the
`packageManager hardhat --version` probe exactly when at least one of the
three command slots is absent; the boolean records whether the probe ran,
and a failing probe rejects with the install message. -/
def hardhatValidate (resolvePath : String → String) (env : HardhatEnv)
    (cfg : HardhatCfg) : Bool × Except String Unit :=
  if cfg.commands.clean = none ∨ cfg.commands.build = none ∨
      cfg.commands.rebuild = none then
    (true,
      if env.execOk ⟨env.packageManager, ["hardhat", "--version"],
          resolvePath cfg.project⟩ then .ok ()
      else .error "hardhat must be installed to use Hardhat plugin.")
  else (false, .ok ())

/-- Chokidar file system event kinds delivered to an `all` handler. -/
inductive FsEvent where
  | add
  | addDir
  | change
  | unlink
  | unlinkDir
deriving DecidableEq

/-- The resolved rebuild command string of the watch command (fetch.ts lines
245 to 247): `commands.rebuild || default`, where JavaScript `or` lets
`false` and the empty string fall back to the package manager default. -/
def rebuildStrOf (env : HardhatEnv) (cfg : HardhatCfg) : String :=
  match cfg.commands.rebuild with
  | some (.cmd s) =>
      if s = "" then env.packageManager ++ " hardhat compile" else s
  | _ => env.packageManager ++ " hardhat compile"

/-- The watcher `all` event handler of the Hardhat watch command (fetch.ts
lines 249 to 256): events other than change, add and unlink return early;
otherwise the rebuild command is spawned. Returns the spawned process, if
any. -/
def watchOnAll (resolvePath : String → String) (project rebuildStr : String)
    (event : FsEvent) : Option Exec :=
  if event ≠ .change ∧ event ≠ .add ∧ event ≠ .unlink then none
  else some (commandExec resolvePath project rebuildStr)

/-- `basename` from pathe as used on the removed path: the last non-empty
segment between slashes. -/
def jsBasename (path : String) : String :=
  (((splitCharsWhen (fun c => c == '/') path.toList).map String.mk).filter
    (fun seg => seg != "")).getLastD ""

/-- The position of the last dot in a character list, counting from `i`. -/
def lastDotFrom (cs : List Char) (i : Nat) : Option Nat :=
  match cs with
  | [] => none
  | c :: rest =>
      match lastDotFrom rest (i + 1) with
      | some j => some j
      | none => if c = '.' then some i else none

/-- `extname` from pathe as used on the removed path: the suffix of the
basename from its last dot; empty when there is no dot or when the only dot
is the leading character. -/
def jsExtname (path : String) : String :=
  let base := (jsBasename path).toList
  match lastDotFrom base 0 with
  | some j => if j = 0 then "" else String.mk (base.drop j)
  | none => ""

/-- Removal of the first occurrence of `pat` from a character list. -/
def replaceFirstAux (pat : List Char) : List Char → List Char
  | [] => []
  | c :: rest =>
      if pat.isPrefixOf (c :: rest) then (c :: rest).drop pat.length
      else c :: replaceFirstAux pat rest

/-- JavaScript `s.replace(pat, "")` with a plain string pattern: remove the
first occurrence of `pat`, as `filename.replace(extension, "")` does in
`onRemove` (fetch.ts lines 282 to 285). -/
def replaceFirst (s pat : String) : String :=
  String.mk (replaceFirstAux pat.toList s.toList)

/-- The contract name guessed from a removed path (fetch.ts lines 279 to
285): the name prefix, then the basename with the first occurrence of its
extension removed. -/
def removedNameOf (prefixName path : String) : String :=
  prefixName ++ replaceFirst (jsBasename path) (jsExtname path)

/-- The loop of `watch.onRemove` (fetch.ts lines 287 to 291): scan the
artifacts in order; a contract with the removed name suppresses the removal
by returning `none`. -/
def onRemoveScan (prefixName removedContractName : String) :
    List (String × Artifact) → Option String
  | [] => some removedContractName
  | pa :: rest =>
      if getContractName prefixName pa.2 = removedContractName then none
      else onRemoveScan prefixName removedContractName rest

/-- `watch.onRemove` (fetch.ts lines 277 to 293): derive the removed
contract name from the path, re-scan all current artifacts, and return the
name only when no artifact still yields it. -/
def hardhatOnRemove (env : HardhatEnv) (cfg : HardhatCfg) (path : String) :
    Option String :=
  onRemoveScan cfg.prefixName (removedNameOf cfg.prefixName path)
    env.artifactFiles

/-- The removal scan returns `none` exactly when some scanned artifact
yields the removed contract name. -/
theorem onRemoveScan_eq_none_iff (p n : String) (l : List (String × Artifact)) :
    onRemoveScan p n l = none ↔ ∃ pa ∈ l, getContractName p pa.2 = n := by
  induction l with
  | nil => simp [onRemoveScan]
  | cons pa rest ih =>
      by_cases h : getContractName p pa.2 = n
      · simp [onRemoveScan, h]
      · simp [onRemoveScan, h, ih]

/-- The removal scan returns the removed name when no scanned artifact
yields it. -/
theorem onRemoveScan_eq_some (p n : String) (l : List (String × Artifact))
    (h : ∀ pa ∈ l, getContractName p pa.2 ≠ n) :
    onRemoveScan p n l = some n := by
  induction l with
  | nil => rfl
  | cons pa rest ih =>
      have hpa : getContractName p pa.2 ≠ n := h pa (List.mem_cons_self pa rest)
      simp only [onRemoveScan, if_neg hpa]
      exact ih fun q hq => h q (List.mem_cons_of_mem pa hq)

/-- Claim C4: onRemove returns `none` (removal suppressed) when some
artifact found by the re-scan yields a contract whose derived name equals
the name derived from the removed path, and returns the derived name when no
such artifact exists. -/
theorem c4_onRemove (env : HardhatEnv) (cfg : HardhatCfg) (path : String) :
    ((∃ pa ∈ env.artifactFiles,
        getContractName cfg.prefixName pa.2 =
          removedNameOf cfg.prefixName path) →
      hardhatOnRemove env cfg path = none) ∧
    ((∀ pa ∈ env.artifactFiles,
        getContractName cfg.prefixName pa.2 ≠
          removedNameOf cfg.prefixName path) →
      hardhatOnRemove env cfg path = some (removedNameOf cfg.prefixName path)) := by
  constructor
  · intro hex
    exact (onRemoveScan_eq_none_iff _ _ _).mpr hex
  · intro hall
    exact onRemoveScan_eq_some _ _ _ hall

/-- A concrete environment whose scan still contains a second artifact named
Foo under a different path. -/
def envC4 : HardhatEnv :=
  ⟨"npm", fun _ => true, true,
    [("artifacts/contracts/Bar.sol/Foo.json", ⟨"Foo", demoAbi⟩)]⟩

/-- Claim C4 witness: the theorem applied where a second artifact still
yields the derived name, so removal is suppressed. -/
theorem c4_onRemove_witness :
    hardhatOnRemove envC4 ⟨"proj", "", ⟨none, none, none⟩⟩
      "artifacts/contracts/Foo.sol/Foo.json" = none :=
  (c4_onRemove envC4 ⟨"proj", "", ⟨none, none, none⟩⟩
      "artifacts/contracts/Foo.sol/Foo.json").1
    ⟨("artifacts/contracts/Bar.sol/Foo.json", ⟨"Foo", demoAbi⟩),
      by decide, by decide⟩

/-- Claim C5: the onRemove re-scan does not exclude the just-removed path:
when the removed path itself is still present in the scan and its artifact
yields the derived name, removal is suppressed. -/
theorem c5_onRemove_no_self_exclusion (env : HardhatEnv) (cfg : HardhatCfg)
    (path : String) (artifact : Artifact)
    (hmem : (path, artifact) ∈ env.artifactFiles)
    (hname : getContractName cfg.prefixName artifact =
      removedNameOf cfg.prefixName path) :
    hardhatOnRemove env cfg path = none :=
  (onRemoveScan_eq_none_iff _ _ _).mpr ⟨(path, artifact), hmem, hname⟩

/-- A concrete environment whose scan contains exactly the removed path. -/
def envC5 : HardhatEnv :=
  ⟨"npm", fun _ => true, true,
    [("artifacts/contracts/Baz.sol/Baz.json", ⟨"Baz", demoAbi⟩)]⟩

/-- Claim C5 witness: the theorem applied where only the removed file itself
defines the contract, yet removal is still suppressed. -/
theorem c5_onRemove_witness :
    hardhatOnRemove envC5 ⟨"proj", "", ⟨none, none, none⟩⟩
      "artifacts/contracts/Baz.sol/Baz.json" = none :=
  c5_onRemove_no_self_exclusion envC5 ⟨"proj", "", ⟨none, none, none⟩⟩
    "artifacts/contracts/Baz.sol/Baz.json" ⟨"Baz", demoAbi⟩
    (by decide) (by decide)

/-- Claim C6: the watcher event handler spawns the rebuild command exactly
for the add, change and unlink event kinds; every other kind returns without
spawning. -/
theorem c6_event_filter (resolvePath : String → String)
    (project rebuildStr : String) (event : FsEvent) :
    watchOnAll resolvePath project rebuildStr event ≠ none ↔
      (event = .add ∨ event = .change ∨ event = .unlink) := by
  cases event <;> simp [watchOnAll]

/-- Claim C7: validate spawns the hardhat version probe exactly when at
least one of the three command slots is absent; when all three are supplied,
including as `false`, it performs no probe and succeeds. -/
theorem c7_validate_probe (resolvePath : String → String) (env : HardhatEnv)
    (cfg : HardhatCfg) :
    ((hardhatValidate resolvePath env cfg).1 = true ↔
      (cfg.commands.clean = none ∨ cfg.commands.build = none ∨
        cfg.commands.rebuild = none)) ∧
    (cfg.commands.clean ≠ none → cfg.commands.build ≠ none →
      cfg.commands.rebuild ≠ none →
      hardhatValidate resolvePath env cfg = (false, .ok ())) := by
  unfold hardhatValidate
  by_cases h : cfg.commands.clean = none ∨ cfg.commands.build = none ∨
      cfg.commands.rebuild = none
  · rw [if_pos h]
    refine ⟨⟨fun _ => h, fun _ => rfl⟩, fun h1 h2 h3 => ?_⟩
    rcases h with h | h | h
    · exact absurd h h1
    · exact absurd h h2
    · exact absurd h h3
  · rw [if_neg h]
    exact ⟨⟨fun hf => absurd hf (by decide), fun hor => absurd hor h⟩,
      fun _ _ _ => rfl⟩

/-- A concrete configuration with all three command slots supplied as
`false`. -/
def cfgAllOff : HardhatCfg := ⟨"proj", "", ⟨some .off, some .off, some .off⟩⟩

/-- Claim C7 witness: the theorem applied with all three commands supplied
as `false`; no probe runs and validate succeeds. -/
theorem c7_validate_probe_witness :
    hardhatValidate (fun p => p) envC4 cfgAllOff = (false, .ok ()) :=
  (c7_validate_probe (fun p => p) envC4 cfgAllOff).2
    (by decide) (by decide) (by decide)

/-- When every spawned command succeeds, the Hardhat contracts call spawns
the clean process, then the build process, and ends with the artifact
scan. -/
theorem hardhatContracts_trace_ok (rp : String → String) (env : HardhatEnv)
    (cfg : HardhatCfg)
    (h1 : ∀ ex, cleanExecOf rp env cfg = some ex → env.execOk ex = true)
    (h2 : ∀ ex, buildExecOf rp env cfg = some ex → env.execOk ex = true) :
    hardhatContracts rp env cfg =
      ((cleanExecOf rp env cfg).toList ++ (buildExecOf rp env cfg).toList,
        scanArtifacts env cfg) := by
  unfold hardhatContracts execStage
  cases hc : cleanExecOf rp env cfg with
  | none =>
      cases hb : buildExecOf rp env cfg with
      | none => simp
      | some ex2 => simp [h2 ex2 hb]
  | some ex =>
      cases hb : buildExecOf rp env cfg with
      | none => simp [h1 ex hc]
      | some ex2 => simp [h1 ex hc, h2 ex2 hb]

/-- A failing clean process aborts the Hardhat contracts call before the
build process is spawned. -/
theorem hardhatContracts_clean_fail (rp : String → String) (env : HardhatEnv)
    (cfg : HardhatCfg) (ex : Exec)
    (hc : cleanExecOf rp env cfg = some ex) (hf : env.execOk ex = false) :
    hardhatContracts rp env cfg = ([ex], .error "command failed") := by
  unfold hardhatContracts execStage
  rw [hc]
  simp [hf]

/-- A failing build process aborts the Hardhat contracts call after the
clean stage. -/
theorem hardhatContracts_build_fail (rp : String → String) (env : HardhatEnv)
    (cfg : HardhatCfg) (ex2 : Exec)
    (h1 : ∀ ex, cleanExecOf rp env cfg = some ex → env.execOk ex = true)
    (hb : buildExecOf rp env cfg = some ex2) (hf : env.execOk ex2 = false) :
    hardhatContracts rp env cfg =
      ((cleanExecOf rp env cfg).toList ++ [ex2], .error "command failed") := by
  unfold hardhatContracts execStage
  cases hc : cleanExecOf rp env cfg with
  | none => simp [hb, hf]
  | some ex => simp [h1 ex hc, hb, hf]

/-- The result of the Hardhat contracts call is the artifact scan result or
a command failure. -/
theorem hardhatContracts_snd (rp : String → String) (env : HardhatEnv)
    (cfg : HardhatCfg) :
    (hardhatContracts rp env cfg).2 = scanArtifacts env cfg ∨
    (hardhatContracts rp env cfg).2 = .error "command failed" := by
  unfold hardhatContracts execStage
  cases hc : cleanExecOf rp env cfg with
  | none =>
      cases hb : buildExecOf rp env cfg with
      | none => exact Or.inl rfl
      | some ex2 =>
          cases h2 : env.execOk ex2
          · exact Or.inr (by simp [h2])
          · exact Or.inl (by simp [h2])
  | some ex =>
      cases h1 : env.execOk ex
      · exact Or.inr (by simp [h1])
      · cases hb : buildExecOf rp env cfg with
        | none => exact Or.inl (by simp [h1])
        | some ex2 =>
            cases h2 : env.execOk ex2
            · exact Or.inr (by simp [h1, h2])
            · exact Or.inl (by simp [h1, h2])

/-- A successful Hardhat contracts call returns exactly the scanned
artifacts with non-empty ABI, as contract records. -/
theorem hardhatContracts_ok_records (rp : String → String) (env : HardhatEnv)
    (cfg : HardhatCfg) (records : List HHContract)
    (h : (hardhatContracts rp env cfg).2 = .ok records) :
    records =
      (env.artifactFiles.map (fun pa => getContract cfg.prefixName pa.2)).filter
        (fun c => c.abi.length != 0) := by
  rcases hardhatContracts_snd rp env cfg with hs | hs
  · rw [hs] at h
    cases ha : env.artifactsExist
    · simp [scanArtifacts, ha] at h
    · simp [scanArtifacts, ha] at h
      exact h.symm
  · rw [hs] at h
    simp at h

/-- Claim C8: the Hardhat contracts call executes the clean command when
enabled, then the build command when enabled, then the artifact scan; a
failing clean aborts before build, a failing build aborts after clean, and a
missing artifacts directory aborts the scan, in every case with no contract
list returned. -/
theorem c8_lifecycle (rp : String → String) (env : HardhatEnv)
    (cfg : HardhatCfg) :
    (∀ records, (hardhatContracts rp env cfg).2 = .ok records →
      (hardhatContracts rp env cfg).1 =
        (cleanExecOf rp env cfg).toList ++ (buildExecOf rp env cfg).toList ∧
      env.artifactsExist = true) ∧
    (∀ ex, cleanExecOf rp env cfg = some ex → env.execOk ex = false →
      hardhatContracts rp env cfg = ([ex], .error "command failed")) ∧
    (∀ ex2, (∀ ex, cleanExecOf rp env cfg = some ex → env.execOk ex = true) →
      buildExecOf rp env cfg = some ex2 → env.execOk ex2 = false →
      hardhatContracts rp env cfg =
        ((cleanExecOf rp env cfg).toList ++ [ex2], .error "command failed")) ∧
    (∀ records, env.artifactsExist = false →
      (hardhatContracts rp env cfg).2 ≠ .ok records) := by
  refine ⟨?_, ?_, ?_, ?_⟩
  · intro records hok
    have h1 : ∀ ex, cleanExecOf rp env cfg = some ex → env.execOk ex = true := by
      intro ex hc
      by_cases hex : env.execOk ex = true
      · exact hex
      · exfalso
        have hf : env.execOk ex = false := by simpa using hex
        rw [hardhatContracts_clean_fail rp env cfg ex hc hf] at hok
        simp at hok
    have h2 : ∀ ex2, buildExecOf rp env cfg = some ex2 →
        env.execOk ex2 = true := by
      intro ex2 hb
      by_cases hex : env.execOk ex2 = true
      · exact hex
      · exfalso
        have hf : env.execOk ex2 = false := by simpa using hex
        rw [hardhatContracts_build_fail rp env cfg ex2 h1 hb hf] at hok
        simp at hok
    have htr := hardhatContracts_trace_ok rp env cfg h1 h2
    rw [htr] at hok ⊢
    refine ⟨rfl, ?_⟩
    simp only at hok
    cases ha : env.artifactsExist
    · exfalso
      simp [scanArtifacts, ha] at hok
    · rfl
  · intro ex hc hf
    exact hardhatContracts_clean_fail rp env cfg ex hc hf
  · intro ex2 h1 hb hf
    exact hardhatContracts_build_fail rp env cfg ex2 h1 hb hf
  · intro records hfalse hok
    rcases hardhatContracts_snd rp env cfg with hs | hs
    · rw [hs] at hok
      simp [scanArtifacts, hfalse] at hok
    · rw [hs] at hok
      simp at hok

/-- A concrete environment in which every spawned process fails. -/
def envCleanFail : HardhatEnv := ⟨"npm", fun _ => false, true, []⟩

/-- A concrete configuration with explicit clean and build commands. -/
def cfgC8 : HardhatCfg :=
  ⟨"proj", "", ⟨some (.cmd "foo clean"), some (.cmd "foo build"), some .off⟩⟩

/-- Claim C8 witness: the theorem applied where the clean command fails; the
call aborts with only the clean process spawned and no contract list. -/
theorem c8_lifecycle_witness :
    hardhatContracts (fun p => p) envCleanFail cfgC8 =
      ([⟨"foo", ["clean"], "proj"⟩], .error "command failed") :=
  (c8_lifecycle (fun p => p) envCleanFail cfgC8).2.1
    ⟨"foo", ["clean"], "proj"⟩ rfl rfl

/-- The spawned process for a command string, characterised by head and tail
of the single-space split. -/
theorem commandExec_eq (resolvePath : String → String) (project s : String) :
    commandExec resolvePath project s =
      ⟨(splitOnSpace s).headD "", (splitOnSpace s).tail,
        resolvePath project⟩ := by
  unfold commandExec
  cases h : splitOnSpace s with
  | nil => simp
  | cons a l => simp

/-- Claim C9 (amended): every command string of the Hardhat adapter is split
at single space characters into an executable, the first token, plus the
remaining tokens as arguments, and the process runs with working directory
the resolved project path; this covers the clean command, the build command
and the watch rebuild command. -/
theorem c9_command_split (resolvePath : String → String) (env : HardhatEnv)
    (cfg : HardhatCfg) (s : String) (hs : s ≠ "") :
    (cfg.commands.clean = some (.cmd s) →
      cleanExecOf resolvePath env cfg =
        some ⟨(splitOnSpace s).headD "", (splitOnSpace s).tail,
          resolvePath cfg.project⟩) ∧
    (cfg.commands.build = some (.cmd s) →
      buildExecOf resolvePath env cfg =
        some ⟨(splitOnSpace s).headD "", (splitOnSpace s).tail,
          resolvePath cfg.project⟩) ∧
    (∀ event, watchOnAll resolvePath cfg.project s event ≠ none →
      watchOnAll resolvePath cfg.project s event =
        some ⟨(splitOnSpace s).headD "", (splitOnSpace s).tail,
          resolvePath cfg.project⟩) := by
  refine ⟨?_, ?_, ?_⟩
  · intro h
    simp [cleanExecOf, cleanCmdOf, h, runnableExec, hs, commandExec_eq]
  · intro h
    simp [buildExecOf, buildCmdOf, h, runnableExec, hs, commandExec_eq]
  · intro event hne
    unfold watchOnAll at hne ⊢
    by_cases hev : event ≠ FsEvent.change ∧ event ≠ FsEvent.add ∧
        event ≠ FsEvent.unlink
    · rw [if_pos hev] at hne
      exact absurd rfl hne
    · rw [if_neg hev]
      rw [commandExec_eq]

/-- Claim C9: counterexample. The code splits a command string at every
single space character, not on whitespace runs: with consecutive spaces the
spawned process receives an empty-string argument that whitespace
tokenisation would not produce, and a tab does not separate the executable
from its first argument. -/
theorem c9_counterexample :
    commandExec (fun p => p) "proj" "npm  hardhat clean" =
      ⟨"npm", ["", "hardhat", "clean"], "proj"⟩ ∧
    splitOnWhitespaceSpec "npm  hardhat clean" = ["npm", "hardhat", "clean"] ∧
    (commandExec (fun p => p) "proj" "npm  hardhat clean").args ≠
      (splitOnWhitespaceSpec "npm  hardhat clean").tail ∧
    (commandExec (fun p => p) "proj" "npm\thardhat clean").exe =
      "npm\thardhat" := by
  refine ⟨rfl, rfl, by decide, rfl⟩

/-- Claim C9 (amended) witness: the theorem applied to a concrete clean
command string with consecutive spaces. -/
theorem c9_command_split_witness :
    cleanExecOf (fun p => p) envC4
      ⟨"proj", "", ⟨some (.cmd "npm  hardhat clean"), some .off, some .off⟩⟩ =
      some ⟨(splitOnSpace "npm  hardhat clean").headD "",
        (splitOnSpace "npm  hardhat clean").tail, "proj"⟩ :=
  (c9_command_split (fun p => p) envC4
    ⟨"proj", "", ⟨some (.cmd "npm  hardhat clean"), some .off, some .off⟩⟩
    "npm  hardhat clean" (by decide)).1 rfl

/-- Claim C2 (amended): on success the Hardhat adapter returns no contract
with an empty ABI, and every scanned artifact with a non-empty ABI is
included with name equal to the prefix followed by its contract name. -/
theorem c2_amended (rp : String → String) (env : HardhatEnv)
    (cfg : HardhatCfg) (records : List HHContract)
    (h : (hardhatContracts rp env cfg).2 = .ok records) :
    (∀ c ∈ records, c.abi ≠ []) ∧
    (∀ pa ∈ env.artifactFiles, Artifact.abi pa.2 ≠ [] →
      getContract cfg.prefixName pa.2 ∈ records) := by
  have hrec := hardhatContracts_ok_records rp env cfg records h
  subst hrec
  constructor
  · intro c hc
    have hpred := (List.mem_filter.mp hc).2
    simp only [bne_iff_ne, ne_eq] at hpred
    intro hnil
    rw [hnil] at hpred
    simp at hpred
  · intro pa hpa hne
    apply List.mem_filter.mpr
    refine ⟨List.mem_map.mpr ⟨pa, hpa, rfl⟩, ?_⟩
    simp only [getContract, bne_iff_ne, ne_eq, List.length_eq_zero]
    exact hne

/-- A concrete environment with one empty-ABI artifact and one non-empty
artifact. -/
def envC2 : HardhatEnv :=
  ⟨"npm", fun _ => true, true,
    [("artifacts/A.json", ⟨"A", []⟩), ("artifacts/B.json", ⟨"B", demoAbi⟩)]⟩

/-- A concrete configuration with a name prefix and all commands disabled. -/
def cfgC2 : HardhatCfg := ⟨"proj", "my", ⟨some .off, some .off, some .off⟩⟩

/-- Claim C2 (amended) witness: the theorem applied at a concrete scan; the
empty-ABI artifact is dropped and the non-empty one is included under the
prefixed name. -/
theorem c2_amended_witness :
    getContract "my" ⟨"B", demoAbi⟩ ∈ [HHContract.mk demoAbi "myB"] :=
  (c2_amended (fun p => p) envC2 cfgC2 [⟨demoAbi, "myB"⟩] rfl).2
    ("artifacts/B.json", ⟨"B", demoAbi⟩) (by decide) (by decide)
